import Mathlib

/-!
Verification of the pydash objects module: a shallow embedding of the
functions in src/pydash/objects.py over a model of Python values, together
with spec-modelled versions of the helper primitives (iterate, get_item,
set_item, iter_callback, flatten, identity) that live outside src/.
-/

/-- Model of a Python value as used by the objects module.  Numbers are
modelled by `Int` (the module treats all numeric types uniformly and no
claim depends on float behaviour).  A mapping is an insertion-ordered
association list; a well-formed Python dict has pairwise distinct keys,
stated as a hypothesis where it matters. -/
inductive PyVal where
  | none : PyVal
  | bool : Bool → PyVal
  | int : Int → PyVal
  | str : String → PyVal
  | list : List PyVal → PyVal
  | dict : List (PyVal × PyVal) → PyVal

mutual

/-- Structural decidable equality on `PyVal` (models Python `==` on the
values the module manipulates). -/
def pyDecEq : (a b : PyVal) → Decidable (a = b)
  | .none, .none => isTrue rfl
  | .none, .bool _ => isFalse nofun
  | .none, .int _ => isFalse nofun
  | .none, .str _ => isFalse nofun
  | .none, .list _ => isFalse nofun
  | .none, .dict _ => isFalse nofun
  | .bool _, .none => isFalse nofun
  | .bool a, .bool b =>
      if h : a = b then isTrue (by rw [h]) else isFalse (fun hh => h (PyVal.bool.inj hh))
  | .bool _, .int _ => isFalse nofun
  | .bool _, .str _ => isFalse nofun
  | .bool _, .list _ => isFalse nofun
  | .bool _, .dict _ => isFalse nofun
  | .int _, .none => isFalse nofun
  | .int _, .bool _ => isFalse nofun
  | .int a, .int b =>
      if h : a = b then isTrue (by rw [h]) else isFalse (fun hh => h (PyVal.int.inj hh))
  | .int _, .str _ => isFalse nofun
  | .int _, .list _ => isFalse nofun
  | .int _, .dict _ => isFalse nofun
  | .str _, .none => isFalse nofun
  | .str _, .bool _ => isFalse nofun
  | .str _, .int _ => isFalse nofun
  | .str a, .str b =>
      if h : a = b then isTrue (by rw [h]) else isFalse (fun hh => h (PyVal.str.inj hh))
  | .str _, .list _ => isFalse nofun
  | .str _, .dict _ => isFalse nofun
  | .list _, .none => isFalse nofun
  | .list _, .bool _ => isFalse nofun
  | .list _, .int _ => isFalse nofun
  | .list _, .str _ => isFalse nofun
  | .list xs, .list ys =>
      match pyDecEqL xs ys with
      | isTrue h => isTrue (by rw [h])
      | isFalse h => isFalse (fun hh => h (PyVal.list.inj hh))
  | .list _, .dict _ => isFalse nofun
  | .dict _, .none => isFalse nofun
  | .dict _, .bool _ => isFalse nofun
  | .dict _, .int _ => isFalse nofun
  | .dict _, .str _ => isFalse nofun
  | .dict _, .list _ => isFalse nofun
  | .dict es, .dict fs =>
      match pyDecEqP es fs with
      | isTrue h => isTrue (by rw [h])
      | isFalse h => isFalse (fun hh => h (PyVal.dict.inj hh))

def pyDecEqL : (xs ys : List PyVal) → Decidable (xs = ys)
  | [], [] => isTrue rfl
  | [], _ :: _ => isFalse nofun
  | _ :: _, [] => isFalse nofun
  | x :: xs, y :: ys =>
      match pyDecEq x y with
      | isTrue h1 =>
          match pyDecEqL xs ys with
          | isTrue h2 => isTrue (by rw [h1, h2])
          | isFalse h2 => isFalse (fun hh => h2 (List.cons.inj hh).2)
      | isFalse h1 => isFalse (fun hh => h1 (List.cons.inj hh).1)

def pyDecEqP : (es fs : List (PyVal × PyVal)) → Decidable (es = fs)
  | [], [] => isTrue rfl
  | [], _ :: _ => isFalse nofun
  | _ :: _, [] => isFalse nofun
  | (k, v) :: es, (k', v') :: fs =>
      match pyDecEq k k' with
      | isTrue h1 =>
          match pyDecEq v v' with
          | isTrue h2 =>
              match pyDecEqP es fs with
              | isTrue h3 => isTrue (by rw [h1, h2, h3])
              | isFalse h3 => isFalse (fun hh => h3 (List.cons.inj hh).2)
          | isFalse h2 =>
              isFalse (fun hh => h2 (congrArg Prod.snd (List.cons.inj hh).1))
      | isFalse h1 =>
          isFalse (fun hh => h1 (congrArg Prod.fst (List.cons.inj hh).1))

end

instance : DecidableEq PyVal := pyDecEq

/-- Python truthiness of a modelled value. -/
def pyTruthy : PyVal → Bool
  | .none => false
  | .bool b => b
  | .int n => n != 0
  | .str s => !s.isEmpty
  | .list xs => !xs.isEmpty
  | .dict es => !es.isEmpty

example : pyTruthy (.list [.int 0]) = true := by decide

/-! ## Spec-modelled primitives (utils module, not under src/) -/

/-- Modelled from the spec: the Generic Iterator `iterate` (utils module,
missing from src/).  For a sequence it yields `(index, value)` pairs with
keys `0..n-1` in order; for a mapping it yields its pairs in insertion
order.  A non-collection raises TypeError in Python; the claims below are
restricted to collections, so the model returns no pairs there. -/
def iterPairs : PyVal → List (PyVal × PyVal)
  | .list xs => xs.enum.map (fun p => (PyVal.int p.1, p.2))
  | .dict es => es
  | _ => []

/-- Whether a value is a collection (sequence or mapping), the domain of
the Generic Iterator. -/
def isColl : PyVal → Bool
  | .list _ => true
  | .dict _ => true
  | _ => false

/-- Modelled from the spec: `get_item(obj, key, default)` (utils module,
missing from src/): a plain key lookup for a mapping, a plain index lookup
for a sequence, returning `default` when the key or index is absent or out
of range — never an error for a missing path. -/
def get_item (obj key default : PyVal) : PyVal :=
  match obj with
  | .dict es =>
      match es.find? (fun p => decide (p.1 = key)) with
      | some p => p.2
      | Option.none => default
  | .list xs =>
      match key with
      | .int i => if 0 ≤ i then xs.getD i.toNat default else default
      | _ => default
  | _ => default

/-- Assignment into an insertion-ordered association list, Python dict
style: an existing key keeps its position and gets the new value, a new
key is appended at the end. -/
def dictSet : List (PyVal × PyVal) → PyVal → PyVal → List (PyVal × PyVal)
  | [], k, v => [(k, v)]
  | (k', v') :: rest, k, v =>
      if k' = k then (k', v) :: rest else (k', v') :: dictSet rest k v

/-- Modelled from the spec: `set_item(obj, key, value)` (utils module,
missing from src/): assigns at the resolved location; creates the
destination slot as needed for simple paths (a fresh dict key is appended;
an out-of-range sequence index appends a new slot). -/
def set_item (obj key value : PyVal) : PyVal :=
  match obj with
  | .dict es => .dict (dictSet es key value)
  | .list xs =>
      match key with
      | .int i =>
          if 0 ≤ i ∧ i.toNat < xs.length then .list (xs.set i.toNat value)
          else .list (xs ++ [value])
      | _ => obj
  | _ => obj

/-- Python dict construction from a pair sequence: later pairs with the
same key overwrite earlier values, while the key keeps its first
position. -/
def pyFromPairs (ps : List (PyVal × PyVal)) : List (PyVal × PyVal) :=
  ps.foldl (fun acc p => dictSet acc p.1 p.2) []

/-- Lookup in an association list, first matching key wins (Python dict
lookup under the dict invariant of pairwise distinct keys). -/
def dictLookup (es : List (PyVal × PyVal)) (k : PyVal) : Option PyVal :=
  (es.find? (fun p => decide (p.1 = k))).map Prod.snd

/-- Entries of a mapping value (empty for a non-mapping). -/
def dictEntries : PyVal → List (PyVal × PyVal)
  | .dict es => es
  | _ => []

/-- Modelled from the spec: a Callback Descriptor, one of absent, a
function, a property name, or a partial-mapping matcher (utils module,
missing from src/). -/
inductive CbDesc where
  | absent : CbDesc
  | func : (PyVal → PyVal → PyVal → PyVal) → CbDesc
  | propName : PyVal → CbDesc
  | whereMatch : List (PyVal × PyVal) → CbDesc

/-- Modelled from the spec: the Callback Normalizer (utils module, missing
from src/) turning a Callback Descriptor into a uniform ternary function
`(value, key, collection) -> result`. -/
def normalizeCb : CbDesc → PyVal → PyVal → PyVal → PyVal
  | .absent => fun v _ _ => v
  | .func f => f
  | .propName n => fun v _ _ => get_item v n .none
  | .whereMatch ps => fun v _ _ =>
      .bool (ps.all (fun p =>
        match v with
        | .dict es =>
            match es.find? (fun q => decide (q.1 = p.1)) with
            | some q => decide (q.2 = p.2)
            | Option.none => false
        | _ => false))

/-- Modelled from the spec: `iter_callback(obj, callback)` (utils module,
missing from src/): the sequence of `(result, value, key, collection)`
tuples with `result = normalized_callback(value, key, obj)`. -/
def iter_callback (obj : PyVal) (cb : CbDesc) : List (PyVal × PyVal × PyVal × PyVal) :=
  (iterPairs obj).map (fun p => (normalizeCb cb p.2 p.1 obj, p.2, p.1, obj))

/-- Modelled from the spec: shallow `flatten` from the arrays module
(missing from src/), used by pick/omit to normalize variadic property
names possibly nested in lists: list elements are expanded one level. -/
def flattenShallow (xs : List PyVal) : List PyVal :=
  (xs.map (fun v =>
    match v with
    | .list ys => ys
    | w => [w])).flatten

/-! ## Embedded source functions (src/pydash/objects.py) -/

/-- Embeds `is_list`. -/
def is_list : PyVal → Bool
  | .list _ => true
  | _ => false

/-- Embeds `is_boolean`. -/
def is_boolean : PyVal → Bool
  | .bool _ => true
  | _ => false

/-- Embeds `is_number` (isinstance of the integer types or float; numbers
are modelled by `Int`). -/
def is_number : PyVal → Bool
  | .int _ => true
  | _ => false

/-- Whether a value is a mapping (isinstance dict). -/
def isDict : PyVal → Bool
  | .dict _ => true
  | _ => false

/-- Embeds `is_empty`: `any([is_boolean(value), is_number(value), not value])`. -/
def is_empty (v : PyVal) : Bool :=
  [is_boolean v, is_number v, !pyTruthy v].any id

/-- Embeds the loop body of `find_key`: first tuple with a truthy result
yields its key, otherwise the implicit Python return value None. -/
def findKeyGo : List (PyVal × PyVal × PyVal × PyVal) → PyVal
  | [] => .none
  | t :: rest => if pyTruthy t.1 then t.2.2.1 else findKeyGo rest

/-- Embeds `find_key`. -/
def find_key (obj : PyVal) (cb : CbDesc) : PyVal :=
  findKeyGo (iter_callback obj cb)

/-- Embeds `find_last_key`, defined in the source as a plain alias of
`find_key`. -/
def find_last_key (obj : PyVal) (cb : CbDesc) : PyVal :=
  find_key obj cb

/-- Embeds the loop of `for_in`: iterate, breaking when a result is
literally False, and return obj. -/
def forInLoop (obj : PyVal) : List (PyVal × PyVal × PyVal × PyVal) → PyVal
  | [] => obj
  | t :: rest => if t.1 = .bool false then obj else forInLoop obj rest

/-- Embeds `for_in`. -/
def for_in (obj : PyVal) (cb : CbDesc) : PyVal :=
  forInLoop obj (iter_callback obj cb)

/-- The tuples of `iter_callback` the `for_in` loop actually consumes (the
callback executions that happen before the loop breaks). -/
def forInVisited : List (PyVal × PyVal × PyVal × PyVal) → List (PyVal × PyVal × PyVal × PyVal)
  | [] => []
  | t :: rest => if t.1 = .bool false then [t] else t :: forInVisited rest

/-- Embeds `invert`: `dict((value, key) for key, value in iterate(obj))`. -/
def invert (obj : PyVal) : PyVal :=
  .dict (pyFromPairs ((iterPairs obj).map (fun p => (p.2, p.1))))

mutual

/-- Embeds `update(obj, source, callback)`: iterate over the source's
pairs, merging each into obj via `mergeStep` and writing back with
`set_item`. -/
def update (cb : Option (PyVal → PyVal → PyVal)) (obj source : PyVal) : PyVal :=
  match source with
  | .list xs => updateSeq cb obj 0 xs
  | .dict es => updateMap cb obj es
  | _ => obj
termination_by (sizeOf source, 0)

/-- The `update` loop over a sequence source, keys are `0..n-1`. -/
def updateSeq (cb : Option (PyVal → PyVal → PyVal)) (obj : PyVal) (i : Nat) :
    List PyVal → PyVal
  | [] => obj
  | sv :: rest =>
      updateSeq cb
        (set_item obj (.int (i : Int))
          (mergeStep cb (get_item obj (.int (i : Int)) .none) sv))
        (i + 1) rest
termination_by l => (sizeOf l, 2)

/-- The `update` loop over a mapping source. -/
def updateMap (cb : Option (PyVal → PyVal → PyVal)) (obj : PyVal) :
    List (PyVal × PyVal) → PyVal
  | [] => obj
  | (k, sv) :: rest =>
      updateMap cb (set_item obj k (mergeStep cb (get_item obj k .none) sv)) rest
termination_by l => (sizeOf l, 2)

/-- Embeds the per-key body of `update`: `is_sequences`/`is_mappings`
require a truthy source value and matching container types; recursion
happens only when one of them holds and no callback was supplied. -/
def mergeStep (cb : Option (PyVal → PyVal → PyVal)) (ov sv : PyVal) : PyVal :=
  let is_sequences := pyTruthy sv && is_list sv && is_list ov
  let is_mappings := pyTruthy sv && isDict sv && isDict ov
  if (is_sequences || is_mappings) && cb.isNone then
    update Option.none ov sv
  else
    match cb with
    | some f => f ov sv
    | Option.none => sv
termination_by (sizeOf sv, 1)

end

/-- Embeds `merge(obj, *sources, callback=...)`: apply `update` for each
source in order. -/
def merge (obj : PyVal) (sources : List PyVal)
    (cb : Option (PyVal → PyVal → PyVal)) : PyVal :=
  sources.foldl (fun o s => update cb o s) obj

/-- An argument to `assign`: a value or a callable (Python lets the
trailing positional argument be the callback function). -/
inductive AssignArg where
  | val : PyVal → AssignArg
  | fn : (PyVal → PyVal → PyVal) → AssignArg

/-- Embeds the inner loop of `assign`:
`obj[key] = value if callback is None else callback(obj.get(key), value)`. -/
def assignItems (cb : Option (PyVal → PyVal → PyVal)) (obj : PyVal) :
    List (PyVal × PyVal) → PyVal
  | [] => obj
  | (k, v) :: rest =>
      assignItems cb
        (set_item obj k
          (match cb with
           | some f => f (get_item obj k .none) v
           | Option.none => v)) rest

/-- Embeds the source loop of `assign`; `iteritems` of a non-mapping
source raises, modelled as `Option.none`. -/
def assignSources (cb : Option (PyVal → PyVal → PyVal)) (obj : PyVal) :
    List AssignArg → Option PyVal
  | [] => some obj
  | .val (.dict es) :: rest => assignSources cb (assignItems cb obj es) rest
  | _ => Option.none

/-- Embeds `assign(obj, *sources, **kargs)`.  With no callback keyword the
code evaluates `callable(sources[-1])`, which raises IndexError on an
empty source list (modelled as `Option.none`); a trailing callable is
popped and used as the callback. -/
def assign (obj : PyVal) (sources : List AssignArg)
    (kcb : Option (PyVal → PyVal → PyVal)) : Option PyVal :=
  if kcb.isNone then
    match sources.getLast? with
    | Option.none => Option.none
    | some lastArg =>
        match lastArg with
        | .fn f => assignSources (some f) obj sources.dropLast
        | .val _ => assignSources Option.none obj sources
  else
    assignSources kcb obj sources

/-- The callback argument of `pick`/`omit`: a callable or a non-callable
value (property name or list of property names). -/
inductive PickArg where
  | call : (PyVal → PyVal → PyVal → PyVal) → PickArg
  | val : PyVal → PickArg

/-- Embeds the predicate resolution of `pick`/`omit`: a non-callable
callback argument is combined with the variadic properties through
`flatten` into a key-membership predicate. -/
def pickCbFn (cbArg : Option PickArg) (props : List PyVal) :
    PyVal → PyVal → PyVal → PyVal :=
  match cbArg with
  | some (.call g) => g
  | some (.val v) =>
      let names := flattenShallow [v, .list props]
      fun _ key _ => .bool (decide (key ∈ names))
  | Option.none =>
      let names := flattenShallow [.list [], .list props]
      fun _ key _ => .bool (decide (key ∈ names))

/-- Embeds `pick`: keep the pairs on which the predicate is truthy. -/
def pick (obj : PyVal) (cbArg : Option PickArg) (props : List PyVal) : PyVal :=
  let f := pickCbFn cbArg props
  .dict (pyFromPairs ((iterPairs obj).filter (fun p => pyTruthy (f p.2 p.1 obj))))

/-- Embeds `omit` (named `omit_` because `omit` is a Lean keyword): keep
the pairs on which the predicate is falsy. -/
def omit_ (obj : PyVal) (cbArg : Option PickArg) (props : List PyVal) : PyVal :=
  let f := pickCbFn cbArg props
  .dict (pyFromPairs ((iterPairs obj).filter (fun p => !pyTruthy (f p.2 p.1 obj))))

/-! ## Heap model for clone (claim C7)

Clone's guarantees are about storage, so they are stated over a small heap
model: mutable container cells live at addresses in an append-only heap,
immutable scalars are inline atoms.  Mutation is `List.set` at a cell's
address. -/

/-- An immutable Python scalar in the heap model. -/
inductive HAtom where
  | none : HAtom
  | bool : Bool → HAtom
  | int : Int → HAtom
  | str : String → HAtom
deriving DecidableEq

/-- A heap value: an immutable atom or a reference to a mutable cell. -/
inductive HVal where
  | atom : HAtom → HVal
  | ref : Nat → HVal
deriving DecidableEq

/-- A mutable container cell: a list node or a dict node (dict keys are
hashable, hence atoms). -/
inductive HNode where
  | arr : List HVal → HNode
  | map : List (HAtom × HVal) → HNode

/-- The heap: the address of a cell is its index; allocation appends. -/
abbrev Heap := List HNode

/-- The `PyVal` denoted by an atom. -/
def atomPy : HAtom → PyVal
  | .none => .none
  | .bool b => .bool b
  | .int n => .int n
  | .str s => .str s

mutual

/-- Read the pure content of a heap value, with fuel bounding the depth
(`Option.none` on a dangling reference or exhausted fuel). -/
def readP : Nat → Heap → HVal → Option PyVal
  | 0, _, _ => Option.none
  | _ + 1, _, .atom a => some (atomPy a)
  | n + 1, h, .ref ad =>
      match h[ad]? with
      | some (.arr es) => (readL n h es).map PyVal.list
      | some (.map es) => (readE n h es).map PyVal.dict
      | Option.none => Option.none
termination_by n _ _ => (n, 0)

def readL : Nat → Heap → List HVal → Option (List PyVal)
  | _, _, [] => some []
  | n, h, v :: vs =>
      match readP n h v, readL n h vs with
      | some p, some ps => some (p :: ps)
      | _, _ => Option.none
termination_by n _ l => (n, l.length + 1)

def readE : Nat → Heap → List (HAtom × HVal) → Option (List (PyVal × PyVal))
  | _, _, [] => some []
  | n, h, (k, v) :: vs =>
      match readP n h v, readE n h vs with
      | some p, some ps => some ((atomPy k, p) :: ps)
      | _, _ => Option.none
termination_by n _ l => (n, l.length + 1)

end

/-- Modelled from the spec: the language-native shallow copy `copy.copy`
(outside src/): a fresh cell holding the same entries; immutable values
copy to themselves. -/
def shallowCopy (h : Heap) (v : HVal) : Heap × HVal :=
  match v with
  | .atom a => (h, .atom a)
  | .ref ad =>
      match h[ad]? with
      | some nd => (h ++ [nd], .ref h.length)
      | Option.none => (h, .ref ad)

mutual

/-- Modelled from the spec: the language-native deep copy `copy.deepcopy`
(outside src/): recursively copy every nested cell into fresh storage.
Fuel bounds the depth (`Option.none` on a dangling reference or exhausted
fuel). -/
def deepcopy : Nat → Heap → HVal → Option (Heap × HVal)
  | 0, _, _ => Option.none
  | _ + 1, h, .atom a => some (h, .atom a)
  | n + 1, h, .ref ad =>
      match h[ad]? with
      | some (.arr es) =>
          match deepcopyL n h es with
          | some (h2, es2) => some (h2 ++ [.arr es2], .ref h2.length)
          | Option.none => Option.none
      | some (.map es) =>
          match deepcopyE n h es with
          | some (h2, es2) => some (h2 ++ [.map es2], .ref h2.length)
          | Option.none => Option.none
      | Option.none => Option.none
termination_by n _ _ => (n, 0)

def deepcopyL : Nat → Heap → List HVal → Option (Heap × List HVal)
  | _, h, [] => some (h, [])
  | n, h, v :: vs =>
      match deepcopy n h v with
      | some (h1, w) =>
          match deepcopyL n h1 vs with
          | some (h2, ws) => some (h2, w :: ws)
          | Option.none => Option.none
      | Option.none => Option.none
termination_by n _ l => (n, l.length + 1)

def deepcopyE : Nat → Heap → List (HAtom × HVal) → Option (Heap × List (HAtom × HVal))
  | _, h, [] => some (h, [])
  | n, h, (k, v) :: vs =>
      match deepcopy n h v with
      | some (h1, w) =>
          match deepcopyE n h1 vs with
          | some (h2, ws) => some (h2, (k, w) :: ws)
          | Option.none => Option.none
      | Option.none => Option.none
termination_by n _ l => (n, l.length + 1)

end

/-- Embeds `clone(value, is_deep, callback)` over the heap model: first a
language-native shallow or deep copy, then a fresh top-level container is
rebuilt from the copied value's iterated entries, each passed through the
callback (identity when absent), exactly as the source builds a new list
or dict from the pairs.  `Option.none` models TypeError (iterating a
non-collection) or exhausted fuel. -/
def cloneH (fuel : Nat) (h : Heap) (v : HVal) (is_deep : Bool)
    (cbO : Option (HVal → HVal)) : Option (Heap × HVal) :=
  let cb := cbO.getD id
  let copied := if is_deep then deepcopy fuel h v else some (shallowCopy h v)
  match copied with
  | Option.none => Option.none
  | some (h1, v1) =>
      match v1 with
      | .ref ad =>
          match h1[ad]? with
          | some (.arr es) =>
              some (h1 ++ [.arr (es.map cb)], .ref h1.length)
          | some (.map es) =>
              some (h1 ++ [.map (es.map (fun q => (q.1, cb q.2)))], .ref h1.length)
          | Option.none => Option.none
      | .atom _ => Option.none

/-- Embeds `clone_deep(value, callback)`: clone with `is_deep=True`. -/
def clone_deep (fuel : Nat) (h : Heap) (v : HVal)
    (cbO : Option (HVal → HVal)) : Option (Heap × HVal) :=
  cloneH fuel h v true cbO

/-- Heap reachability: the cells reachable from a heap value (its own
cell and, transitively, the cells its entries reference).  Overwriting a
nested entry of a structure means a `List.set` at a reachable address. -/
inductive Reaches (h : Heap) : HVal → Nat → Prop where
  | here (a : Nat) : Reaches h (.ref a) a
  | thruArr {a b : Nat} {es : List HVal} {v : HVal} :
      h[a]? = some (.arr es) → v ∈ es → Reaches h v b → Reaches h (.ref a) b
  | thruMap {a b : Nat} {es : List (HAtom × HVal)} {k : HAtom} {v : HVal} :
      h[a]? = some (.map es) → (k, v) ∈ es → Reaches h v b → Reaches h (.ref a) b

/-- All references of a heap value point at or above `base`. -/
def hvalGE (base : Nat) : HVal → Prop
  | .atom _ => True
  | .ref c => base ≤ c

/-- All references of a node point at or above `base`. -/
def nodeGE (base : Nat) : HNode → Prop
  | .arr es => ∀ v ∈ es, hvalGE base v
  | .map es => ∀ q ∈ es, hvalGE base q.2

/-! ## Spec-side characterizations used by the claims -/

/-- Spec-side shape test of amended claim C1: the source value is a
non-empty sequence and the destination value is a sequence. -/
def shapeSeq (ov sv : PyVal) : Bool :=
  match sv, ov with
  | .list (_ :: _), .list _ => true
  | _, _ => false

/-- Spec-side shape test of amended claim C1: the source value is a
non-empty mapping and the destination value is a mapping. -/
def shapeMap (ov sv : PyVal) : Bool :=
  match sv, ov with
  | .dict (_ :: _), .dict _ => true
  | _, _ => false

/-- The per-key merged value as the amended claim C1 describes it: when
the shapes match as above and no callback is supplied the two values are
merged by a recursive update; otherwise a supplied callback produces the
merged value, and with no callback the source value overwrites. -/
def specMergedValue (cb : Option (PyVal → PyVal → PyVal)) (ov sv : PyVal) : PyVal :=
  if (shapeSeq ov sv || shapeMap ov sv) && cb.isNone then
    update Option.none ov sv
  else
    match cb with
    | some f => f ov sv
    | Option.none => sv

/-! ## Helper lemmas -/

theorem mergeStep_cond_eq (ov sv : PyVal) :
    (pyTruthy sv && is_list sv && is_list ov || pyTruthy sv && isDict sv && isDict ov) =
      (shapeSeq ov sv || shapeMap ov sv) := by
  cases sv <;> cases ov <;>
    simp [pyTruthy, is_list, isDict, shapeSeq, shapeMap] <;>
    (rename_i xs _; cases xs <;> simp)

theorem mergeStep_eq_spec (cb : Option (PyVal → PyVal → PyVal)) (ov sv : PyVal) :
    mergeStep cb ov sv = specMergedValue cb ov sv := by
  simp only [mergeStep.eq_def, specMergedValue, mergeStep_cond_eq]

theorem updateMap_cons (cb : Option (PyVal → PyVal → PyVal)) (obj k sv : PyVal)
    (rest : List (PyVal × PyVal)) :
    updateMap cb obj ((k, sv) :: rest) =
      updateMap cb (set_item obj k (mergeStep cb (get_item obj k .none) sv)) rest := by
  rw [updateMap]

theorem updateSeq_cons (cb : Option (PyVal → PyVal → PyVal)) (obj sv : PyVal)
    (i : Nat) (rest : List PyVal) :
    updateSeq cb obj i (sv :: rest) =
      updateSeq cb
        (set_item obj (.int (i : Int))
          (mergeStep cb (get_item obj (.int (i : Int)) .none) sv))
        (i + 1) rest := by
  rw [updateSeq]

/-! ## Claim theorems -/

/-- C1 counterexample: the claim predicts that when the source value and
the destination value at a key are both non-empty sequences they are
always merged by a recursive update, the callback being applied only in
non-shape-matching cases.  At obj = a: [1], source = a: [2] with callback
returning 99, the code produces a: 99 (the callback result), while the
claimed recursive update of [1] by [2] yields [2], so the claimed result
a: [2] differs from the actual one. -/
theorem C1_counterexample :
    update (some (fun _ _ => PyVal.int 99))
        (.dict [(.str "a", .list [.int 1])]) (.dict [(.str "a", .list [.int 2])]) =
      .dict [(.str "a", .int 99)] ∧
    update Option.none (.list [.int 1]) (.list [.int 2]) = .list [.int 2] ∧
    PyVal.dict [(.str "a", PyVal.int 99)] ≠
      PyVal.dict [(.str "a", PyVal.list [.int 2])] := by
  refine ⟨?_, ?_, by decide⟩
  · simp [update, updateMap, updateSeq, mergeStep, get_item, set_item, dictSet,
      pyTruthy, is_list, isDict]
  · simp [update, updateSeq, mergeStep, get_item, set_item, pyTruthy, is_list, isDict]

/-- C1 (amended): in update(obj, source, callback), for every key of the
source, when the source value is a non-empty sequence and the destination
value a sequence, or the source value a non-empty mapping and the
destination value a mapping, AND no callback is supplied, the two are
merged by a recursive update; in every other case a supplied callback
produces the merged value callback(obj_value, src_value), and with no
callback the source value overwrites the destination value.  The merged
value is written back at the key. -/
theorem C1_update_per_key (cb : Option (PyVal → PyVal → PyVal)) :
    (∀ (obj k sv : PyVal) (rest : List (PyVal × PyVal)),
      updateMap cb obj ((k, sv) :: rest) =
        updateMap cb (set_item obj k (specMergedValue cb (get_item obj k .none) sv)) rest) ∧
    (∀ (obj sv : PyVal) (i : Nat) (rest : List PyVal),
      updateSeq cb obj i (sv :: rest) =
        updateSeq cb
          (set_item obj (.int (i : Int))
            (specMergedValue cb (get_item obj (.int (i : Int)) .none) sv))
          (i + 1) rest) ∧
    (∀ ov sv, mergeStep cb ov sv = specMergedValue cb ov sv) := by
  refine ⟨?_, ?_, fun ov sv => mergeStep_eq_spec cb ov sv⟩
  · intro obj k sv rest
    rw [updateMap_cons, mergeStep_eq_spec]
  · intro obj sv i rest
    rw [updateSeq_cons, mergeStep_eq_spec]

/-- C2: merge({a: [1, 2]}, {a: [9]}) returns {a: [9, 2]}: with non-empty
sequences on both sides, merge overwrites positionally by index, leaving
index 1 of the destination untouched. -/
theorem C2_merge_positional :
    merge (.dict [(.str "a", .list [.int 1, .int 2])])
        [.dict [(.str "a", .list [.int 9])]] Option.none =
      .dict [(.str "a", .list [.int 9, .int 2])] := by
  simp [merge, update, updateMap, updateSeq, mergeStep, get_item, set_item,
    dictSet, pyTruthy, is_list, isDict]

/-- C3: in update without a callback, a key whose source value is an empty
sequence or mapping is never recursed into, whatever the destination value
at that key is: the empty source value is written back directly. -/
theorem C3_empty_source_overwrites :
    (∀ (obj k : PyVal) (rest : List (PyVal × PyVal)),
      updateMap Option.none obj ((k, PyVal.list []) :: rest) =
        updateMap Option.none (set_item obj k (.list [])) rest) ∧
    (∀ (obj k : PyVal) (rest : List (PyVal × PyVal)),
      updateMap Option.none obj ((k, PyVal.dict []) :: rest) =
        updateMap Option.none (set_item obj k (.dict [])) rest) ∧
    (∀ (obj : PyVal) (i : Nat) (rest : List PyVal),
      updateSeq Option.none obj i (PyVal.list [] :: rest) =
        updateSeq Option.none (set_item obj (.int (i : Int)) (.list [])) (i + 1) rest) ∧
    (∀ (obj : PyVal) (i : Nat) (rest : List PyVal),
      updateSeq Option.none obj i (PyVal.dict [] :: rest) =
        updateSeq Option.none (set_item obj (.int (i : Int)) (.dict [])) (i + 1) rest) := by
  have hl : ∀ ov, specMergedValue Option.none ov (.list []) = .list [] := by
    intro ov; cases ov <;> rfl
  have hd : ∀ ov, specMergedValue Option.none ov (.dict []) = .dict [] := by
    intro ov; cases ov <;> rfl
  refine ⟨fun obj k rest => ?_, fun obj k rest => ?_, fun obj i rest => ?_,
    fun obj i rest => ?_⟩
  · rw [updateMap_cons, mergeStep_eq_spec, hl]
  · rw [updateMap_cons, mergeStep_eq_spec, hd]
  · rw [updateSeq_cons, mergeStep_eq_spec, hl]
  · rw [updateSeq_cons, mergeStep_eq_spec, hd]

/-- C6: is_empty(v) is true exactly when v is a boolean, or v is a number
(any number, zero or not), or v is falsy (such as a zero-length sequence,
mapping or string). -/
theorem C6_is_empty_iff (v : PyVal) :
    is_empty v = true ↔
      ((∃ b, v = PyVal.bool b) ∨ (∃ n, v = PyVal.int n) ∨ pyTruthy v = false) := by
  cases v <;> simp [is_empty, is_boolean, is_number, pyTruthy]

/-- C9: assign(obj) with zero sources and no callback keyword raises (the
code indexes sources[-1] on an empty list), modelled as Option.none, while
assign(obj, callback=f) with zero sources returns obj unchanged. -/
theorem C9_assign_zero_sources :
    (∀ obj, assign obj [] Option.none = Option.none) ∧
    (∀ obj f, assign obj [] (some f) = some obj) :=
  ⟨fun _ => rfl, fun _ _ => rfl⟩

theorem forInLoop_ret (obj : PyVal) (l : List (PyVal × PyVal × PyVal × PyVal)) :
    forInLoop obj l = obj := by
  induction l with
  | nil => rfl
  | cons t rest ih => by_cases h : t.1 = PyVal.bool false <;> simp [forInLoop, h, ih]

theorem forInVisited_eq (l : List (PyVal × PyVal × PyVal × PyVal)) :
    forInVisited l =
      l.takeWhile (fun t => !decide (t.1 = PyVal.bool false)) ++
        (l.dropWhile (fun t => !decide (t.1 = PyVal.bool false))).take 1 := by
  induction l with
  | nil => rfl
  | cons t rest ih =>
      by_cases h : t.1 = PyVal.bool false <;>
        simp [forInVisited, h, List.takeWhile_cons, List.dropWhile_cons, ih]

/-- C4: for_in(obj, callback) returns obj, and the iteration it consumes
is exactly the tuples up to and including the first one whose normalized
callback result is literally False — a falsy but non-False result (0, an
empty string, None) does not stop the scan. -/
theorem C4_for_in (obj : PyVal) (cb : CbDesc) (_hobj : isColl obj = true) :
    for_in obj cb = obj ∧
    forInVisited (iter_callback obj cb) =
      (iter_callback obj cb).takeWhile (fun t => !decide (t.1 = PyVal.bool false)) ++
        ((iter_callback obj cb).dropWhile
          (fun t => !decide (t.1 = PyVal.bool false))).take 1 :=
  ⟨forInLoop_ret obj _, forInVisited_eq _⟩

/-- C4 witness: the theorem applied to a two-key mapping whose callback
results are 0 (falsy, does not stop) and False (stops, consumed last). -/
theorem C4_for_in_witness :
    isColl (.dict [(.str "a", .int 0), (.str "b", .bool false)]) = true ∧
    (for_in (.dict [(.str "a", .int 0), (.str "b", .bool false)]) .absent =
        .dict [(.str "a", .int 0), (.str "b", .bool false)] ∧
      forInVisited
          (iter_callback (.dict [(.str "a", .int 0), (.str "b", .bool false)]) .absent) =
        [(.int 0, .int 0, .str "a", .dict [(.str "a", .int 0), (.str "b", .bool false)]),
         (.bool false, .bool false, .str "b",
           .dict [(.str "a", .int 0), (.str "b", .bool false)])]) :=
  ⟨rfl, C4_for_in (.dict [(.str "a", .int 0), (.str "b", .bool false)]) .absent rfl⟩

theorem findKeyGo_map (o : PyVal) (F : PyVal × PyVal → PyVal) (l : List (PyVal × PyVal)) :
    findKeyGo (l.map (fun p => (F p, p.2, p.1, o))) =
      (match l.find? (fun p => pyTruthy (F p)) with
       | some p => p.1
       | Option.none => PyVal.none) := by
  induction l with
  | nil => rfl
  | cons p rest ih =>
      by_cases h : pyTruthy (F p) = true
      · simp [findKeyGo, h, List.find?_cons_of_pos]
      · simp only [List.map_cons, findKeyGo, h, if_false, Bool.false_eq_true]
        rw [List.find?_cons_of_neg _ (by simp [h]), ih]

/-- C5: find_last_key is an alias of find_key with identical forward-scan
semantics: it returns the key of the first pair in forward iteration order
whose normalized callback result is truthy (None when no pair matches),
not the last matching key a reverse scan would yield, as the concrete
two-key example shows. -/
theorem C5_find_last_key (obj : PyVal) (cb : CbDesc) (_hobj : isColl obj = true) :
    find_last_key obj cb = find_key obj cb ∧
    find_key obj cb =
      (match (iterPairs obj).find? (fun p => pyTruthy (normalizeCb cb p.2 p.1 obj)) with
       | some p => p.1
       | Option.none => PyVal.none) ∧
    find_last_key (.dict [(.str "a", .int 1), (.str "b", .int 2)])
        (.func (fun _ _ _ => .bool true)) = .str "a" ∧
    findKeyGo ((iter_callback (.dict [(.str "a", .int 1), (.str "b", .int 2)])
        (.func (fun _ _ _ => .bool true))).reverse) = .str "b" :=
  ⟨rfl, findKeyGo_map obj _ (iterPairs obj), rfl, rfl⟩

/-- C5 witness: the theorem applied to a mapping whose second value is the
only truthy callback result. -/
theorem C5_find_last_key_witness :
    isColl (.dict [(.str "a", .int 0), (.str "b", .int 2)]) = true ∧
    (find_last_key (.dict [(.str "a", .int 0), (.str "b", .int 2)]) .absent =
        find_key (.dict [(.str "a", .int 0), (.str "b", .int 2)]) .absent ∧
      find_key (.dict [(.str "a", .int 0), (.str "b", .int 2)]) .absent = .str "b" ∧
      find_last_key (.dict [(.str "a", .int 1), (.str "b", .int 2)])
          (.func (fun _ _ _ => .bool true)) = .str "a" ∧
      findKeyGo ((iter_callback (.dict [(.str "a", .int 1), (.str "b", .int 2)])
          (.func (fun _ _ _ => .bool true))).reverse) = .str "b") :=
  ⟨rfl, C5_find_last_key (.dict [(.str "a", .int 0), (.str "b", .int 2)]) .absent rfl⟩

theorem dictLookup_cons (a b x : PyVal) (rest : List (PyVal × PyVal)) :
    dictLookup ((a, b) :: rest) x = if a = x then some b else dictLookup rest x := by
  unfold dictLookup
  by_cases h : a = x
  · rw [List.find?_cons_of_pos _ (by simp [h])]; simp [h]
  · rw [List.find?_cons_of_neg _ (by simp [h])]; simp [h]

theorem dictLookup_dictSet (es : List (PyVal × PyVal)) (k v x : PyVal) :
    dictLookup (dictSet es k v) x = if x = k then some v else dictLookup es x := by
  induction es with
  | nil =>
      rw [dictSet, dictLookup_cons]
      by_cases h : x = k
      · rw [if_pos h.symm, if_pos h]
      · rw [if_neg (fun hh => h hh.symm), if_neg h]
  | cons p rest ih =>
      obtain ⟨a, b⟩ := p
      rw [dictSet]
      by_cases h1 : a = k
      · rw [if_pos h1, dictLookup_cons, dictLookup_cons]
        by_cases h2 : a = x
        · rw [if_pos h2, if_pos (h2.symm.trans h1)]
        · have hxk : ¬x = k := fun hh => h2 (h1.trans hh.symm)
          rw [if_neg h2, if_neg hxk, if_neg h2]
      · rw [if_neg h1, dictLookup_cons, dictLookup_cons, ih]
        by_cases h2 : a = x
        · have hxk : ¬x = k := fun hh => h1 (h2.trans hh)
          rw [if_pos h2, if_neg hxk, if_pos h2]
        · rw [if_neg h2, if_neg h2]

theorem dictLookup_foldl (x : PyVal) (ps : List (PyVal × PyVal)) :
    ∀ acc, dictLookup (ps.foldl (fun a p => dictSet a p.1 p.2) acc) x =
      (match ps.reverse.find? (fun p => decide (p.1 = x)) with
       | some p => some p.2
       | Option.none => dictLookup acc x) := by
  induction ps with
  | nil => intro acc; rfl
  | cons p rest ih =>
      intro acc
      simp only [List.foldl_cons]
      rw [ih, List.reverse_cons, List.find?_append]
      rcases hf : rest.reverse.find? (fun p => decide (p.1 = x)) with _ | q
      · rw [hf]
        show dictLookup (dictSet acc p.1 p.2) x =
          (match [p].find? (fun p => decide (p.1 = x)) with
           | some p => some p.2
           | Option.none => dictLookup acc x)
        by_cases h : p.1 = x
        · rw [List.find?_cons_of_pos _ (by simp [h]), dictLookup_dictSet,
            if_pos h.symm]
        · rw [List.find?_cons_of_neg _ (by simp [h]), dictLookup_dictSet,
            if_neg (fun hh => h hh.symm)]
          rfl
      · rw [hf]
        rfl

theorem dictSet_fresh (k v : PyVal) (es : List (PyVal × PyVal))
    (h : k ∉ es.map Prod.fst) : dictSet es k v = es ++ [(k, v)] := by
  induction es with
  | nil => rfl
  | cons p rest ih =>
      obtain ⟨a, b⟩ := p
      simp only [List.map_cons, List.mem_cons, not_or] at h
      rw [dictSet, if_neg (fun hh => h.1 hh.symm), ih h.2]
      rfl

theorem foldl_dictSet_fresh (ps : List (PyVal × PyVal)) :
    ∀ acc, (∀ p ∈ ps, p.1 ∉ acc.map Prod.fst) → (ps.map Prod.fst).Nodup →
      ps.foldl (fun a p => dictSet a p.1 p.2) acc = acc ++ ps := by
  induction ps with
  | nil => intro acc _ _; simp
  | cons p rest ih =>
      intro acc hfresh hnd
      rw [List.map_cons, List.nodup_cons] at hnd
      simp only [List.foldl_cons]
      rw [dictSet_fresh p.1 p.2 acc (hfresh p (List.mem_cons_self p rest))]
      rw [ih (acc ++ [(p.1, p.2)]) ?_ hnd.2]
      · simp
      · intro q hq
        rw [List.map_append, List.mem_append]
        rintro (hin | hin)
        · exact hfresh q (List.mem_cons_of_mem _ hq) hin
        · simp only [List.map_cons, List.map_nil, List.mem_singleton] at hin
          exact hnd.1 (hin ▸ List.mem_map_of_mem Prod.fst hq)

theorem pyFromPairs_nodup (ps : List (PyVal × PyVal))
    (h : (ps.map Prod.fst).Nodup) : pyFromPairs ps = ps := by
  unfold pyFromPairs
  rw [foldl_dictSet_fresh ps [] (by simp) h]
  rfl

/-- Whether a value can be used as a Python dict key (lists and dicts are
unhashable). -/
def isHashable : PyVal → Bool
  | .list _ => false
  | .dict _ => false
  | _ => true

/-- C8: for a mapping with pairwise distinct keys whose values are
pairwise distinct and hashable, invert(invert(m)) = m; and for every
mapping, invert maps each value to the key of the last pair carrying that
value in iteration order (last-write-wins). -/
theorem C8_invert_involution (es : List (PyVal × PyVal))
    (hk : (es.map Prod.fst).Nodup) (hv : (es.map Prod.snd).Nodup)
    (_hh : ∀ p ∈ es, isHashable p.2 = true) :
    invert (invert (.dict es)) = .dict es ∧
    (∀ (fs : List (PyVal × PyVal)) (v : PyVal),
      dictLookup (dictEntries (invert (.dict fs))) v =
        (fs.reverse.find? (fun p => decide (p.2 = v))).map Prod.fst) := by
  constructor
  · have h1 : ((es.map (fun p => (p.2, p.1))).map Prod.fst).Nodup := by
      rw [List.map_map]
      exact hv
    have h2 : invert (.dict es) = .dict (es.map (fun p => (p.2, p.1))) := by
      show PyVal.dict (pyFromPairs (es.map (fun p => (p.2, p.1)))) = _
      rw [pyFromPairs_nodup _ h1]
    rw [h2]
    show PyVal.dict
        (pyFromPairs ((es.map (fun p => (p.2, p.1))).map (fun p => (p.2, p.1)))) =
      .dict es
    rw [List.map_map]
    have h3 : ((fun p : PyVal × PyVal => (p.2, p.1)) ∘ fun p : PyVal × PyVal => (p.2, p.1)) =
        id := by
      funext p; rfl
    rw [h3, List.map_id, pyFromPairs_nodup _ hk]
  · intro fs v
    show dictLookup (pyFromPairs (fs.map (fun p => (p.2, p.1)))) v = _
    unfold pyFromPairs
    rw [dictLookup_foldl, ← List.map_reverse, List.find?_map]
    rcases hf : fs.reverse.find? (fun p => decide (p.2 = v)) with _ | q
    · have : ((fun p : PyVal × PyVal => decide (p.1 = v)) ∘ fun p : PyVal × PyVal =>
          (p.2, p.1)) = fun p : PyVal × PyVal => decide (p.2 = v) := by
        funext p; rfl
      rw [this, hf]
      rfl
    · have : ((fun p : PyVal × PyVal => decide (p.1 = v)) ∘ fun p : PyVal × PyVal =>
          (p.2, p.1)) = fun p : PyVal × PyVal => decide (p.2 = v) := by
        funext p; rfl
      rw [this, hf]
      rfl

/-- C8 witness: the theorem applied to the mapping a: 1, b: 2. -/
theorem C8_invert_involution_witness :
    ([PyVal.str "a", PyVal.str "b"].Nodup ∧ [PyVal.int 1, PyVal.int 2].Nodup) ∧
    invert (invert (.dict [(.str "a", .int 1), (.str "b", .int 2)])) =
      .dict [(.str "a", .int 1), (.str "b", .int 2)] ∧
    dictLookup (dictEntries (invert (.dict [(.str "a", .int 1), (.str "b", .int 1)])))
        (.int 1) = some (.str "b") := by
  have h := C8_invert_involution [(.str "a", .int 1), (.str "b", .int 2)]
    (by simp) (by simp) (by intro p hp; simp at hp; rcases hp with h1 | h1 <;> simp [h1, isHashable])
  refine ⟨⟨by simp, by simp⟩, h.1, ?_⟩
  rw [h.2 [(.str "a", .int 1), (.str "b", .int 1)] (.int 1)]
  rfl

/-- C10: for a collection with pairwise distinct keys and a deterministic
ternary predicate callback, pick and omit partition the iterated pairs:
pick keeps exactly the pairs on which the predicate is truthy, omit
exactly the others, every iterated pair lands in at least one of the two,
and their key sets are disjoint. -/
theorem C10_pick_omit_partition (obj : PyVal) (f : PyVal → PyVal → PyVal → PyVal)
    (_hobj : isColl obj = true)
    (hk : ((iterPairs obj).map Prod.fst).Nodup) :
    dictEntries (pick obj (some (.call f)) []) =
      (iterPairs obj).filter (fun p => pyTruthy (f p.2 p.1 obj)) ∧
    dictEntries (omit_ obj (some (.call f)) []) =
      (iterPairs obj).filter (fun p => !pyTruthy (f p.2 p.1 obj)) ∧
    (∀ p, p ∈ iterPairs obj ↔
      (p ∈ dictEntries (pick obj (some (.call f)) []) ∨
        p ∈ dictEntries (omit_ obj (some (.call f)) []))) ∧
    (∀ k, k ∈ (dictEntries (pick obj (some (.call f)) [])).map Prod.fst →
      k ∉ (dictEntries (omit_ obj (some (.call f)) [])).map Prod.fst) := by
  have hpick : dictEntries (pick obj (some (.call f)) []) =
      (iterPairs obj).filter (fun p => pyTruthy (f p.2 p.1 obj)) := by
    show pyFromPairs ((iterPairs obj).filter (fun p => pyTruthy (f p.2 p.1 obj))) = _
    exact pyFromPairs_nodup _
      (List.Nodup.sublist (List.Sublist.map Prod.fst (List.filter_sublist _)) hk)
  have homit : dictEntries (omit_ obj (some (.call f)) []) =
      (iterPairs obj).filter (fun p => !pyTruthy (f p.2 p.1 obj)) := by
    show pyFromPairs ((iterPairs obj).filter (fun p => !pyTruthy (f p.2 p.1 obj))) = _
    exact pyFromPairs_nodup _
      (List.Nodup.sublist (List.Sublist.map Prod.fst (List.filter_sublist _)) hk)
  refine ⟨hpick, homit, ?_, ?_⟩
  · intro p
    rw [hpick, homit, List.mem_filter, List.mem_filter]
    constructor
    · intro hp
      by_cases hP : pyTruthy (f p.2 p.1 obj) = true
      · exact Or.inl ⟨hp, hP⟩
      · exact Or.inr ⟨hp, by simp [hP]⟩
    · rintro (⟨hp, _⟩ | ⟨hp, _⟩) <;> exact hp
  · intro k hkp hko
    rw [hpick] at hkp
    rw [homit] at hko
    obtain ⟨p1, hp1, hk1⟩ := List.mem_map.1 hkp
    obtain ⟨p2, hp2, hk2⟩ := List.mem_map.1 hko
    rw [List.mem_filter] at hp1 hp2
    have heq : p1 = p2 :=
      List.inj_on_of_nodup_map hk hp1.1 hp2.1 (hk1.trans hk2.symm)
    have hcontra := hp2.2
    rw [← heq, hp1.2] at hcontra
    exact absurd hcontra (by simp)

/-- C10 witness: the theorem applied to the mapping a: 1, b: 2 with the
predicate selecting key a. -/
theorem C10_pick_omit_partition_witness :
    isColl (.dict [(.str "a", .int 1), (.str "b", .int 2)]) = true ∧
    (dictEntries (pick (.dict [(.str "a", .int 1), (.str "b", .int 2)])
        (some (.call (fun _ k _ => .bool (decide (k = PyVal.str "a"))))) []) =
      (iterPairs (.dict [(.str "a", .int 1), (.str "b", .int 2)])).filter
        (fun p => pyTruthy ((fun (_ k _ : PyVal) => PyVal.bool (decide (k = PyVal.str "a")))
          p.2 p.1 (PyVal.dict [(.str "a", .int 1), (.str "b", .int 2)]))) ∧
    dictEntries (omit_ (.dict [(.str "a", .int 1), (.str "b", .int 2)])
        (some (.call (fun _ k _ => .bool (decide (k = PyVal.str "a"))))) []) =
      (iterPairs (.dict [(.str "a", .int 1), (.str "b", .int 2)])).filter
        (fun p => !pyTruthy ((fun (_ k _ : PyVal) => PyVal.bool (decide (k = PyVal.str "a")))
          p.2 p.1 (PyVal.dict [(.str "a", .int 1), (.str "b", .int 2)]))) ∧
    (∀ p, p ∈ iterPairs (.dict [(.str "a", .int 1), (.str "b", .int 2)]) ↔
      (p ∈ dictEntries (pick (.dict [(.str "a", .int 1), (.str "b", .int 2)])
          (some (.call (fun _ k _ => .bool (decide (k = PyVal.str "a"))))) []) ∨
        p ∈ dictEntries (omit_ (.dict [(.str "a", .int 1), (.str "b", .int 2)])
          (some (.call (fun _ k _ => .bool (decide (k = PyVal.str "a"))))) []))) ∧
    (∀ k, k ∈ (dictEntries (pick (.dict [(.str "a", .int 1), (.str "b", .int 2)])
          (some (.call (fun _ k _ => .bool (decide (k = PyVal.str "a"))))) [])).map
            Prod.fst →
      k ∉ (dictEntries (omit_ (.dict [(.str "a", .int 1), (.str "b", .int 2)])
          (some (.call (fun _ k _ => .bool (decide (k = PyVal.str "a"))))) [])).map
            Prod.fst)) :=
  ⟨rfl, C10_pick_omit_partition (.dict [(.str "a", .int 1), (.str "b", .int 2)])
    (fun _ k _ => .bool (decide (k = PyVal.str "a"))) rfl (by decide)⟩

/-! ## Heap lemmas for claim C7 -/

theorem readP_zero (h : Heap) (v : HVal) : readP 0 h v = Option.none := by
  rw [readP]

theorem readP_ref_arr (n : Nat) (h : Heap) (ad : Nat) (es : List HVal)
    (hnd : h[ad]? = some (.arr es)) :
    readP (n + 1) h (.ref ad) = (readL n h es).map PyVal.list := by
  rw [readP, hnd]

theorem readP_ref_map (n : Nat) (h : Heap) (ad : Nat) (es : List (HAtom × HVal))
    (hnd : h[ad]? = some (.map es)) :
    readP (n + 1) h (.ref ad) = (readE n h es).map PyVal.dict := by
  rw [readP, hnd]

theorem readP_ref_none (n : Nat) (h : Heap) (ad : Nat)
    (hnd : h[ad]? = Option.none) :
    readP (n + 1) h (.ref ad) = Option.none := by
  rw [readP, hnd]

theorem read_append_all (n : Nat) :
    (∀ (h l : Heap) (v : HVal) (p : PyVal),
      readP n h v = some p → readP n (h ++ l) v = some p) ∧
    (∀ (h l : Heap) (es : List HVal) (ps : List PyVal),
      readL n h es = some ps → readL n (h ++ l) es = some ps) ∧
    (∀ (h l : Heap) (es : List (HAtom × HVal)) (ps : List (PyVal × PyVal)),
      readE n h es = some ps → readE n (h ++ l) es = some ps) := by
  induction n with
  | zero =>
      refine ⟨fun h l v p hv => (by rw [readP_zero] at hv; cases hv), ?_, ?_⟩
      · intro h l es ps hes
        cases es with
        | nil => simpa [readL] using hes
        | cons v vs => rw [readL, readP_zero] at hes; cases hes
      · intro h l es ps hes
        cases es with
        | nil => simpa [readE] using hes
        | cons q vs =>
            obtain ⟨k, v⟩ := q
            rw [readE, readP_zero] at hes; cases hes
  | succ n ih =>
      obtain ⟨ihP, ihL, ihE⟩ := ih
      have hP : ∀ (h l : Heap) (v : HVal) (p : PyVal),
          readP (n + 1) h v = some p → readP (n + 1) (h ++ l) v = some p := by
        intro h l v p hv
        cases v with
        | atom a => simpa [readP] using hv
        | ref ad =>
            rcases hnd : h[ad]? with _ | nd
            · rw [readP_ref_none n h ad hnd] at hv; cases hv
            · have had : ad < h.length := by
                by_contra hlt
                rw [List.getElem?_eq_none (by omega)] at hnd
                cases hnd
              have hnd2 : (h ++ l)[ad]? = some nd := by
                rw [List.getElem?_append, if_pos had]
                exact hnd
              cases nd with
              | arr es =>
                  rw [readP_ref_arr n h ad es hnd] at hv
                  rw [readP_ref_arr n (h ++ l) ad es hnd2]
                  rcases hre : readL n h es with _ | ps
                  · rw [hre] at hv; cases hv
                  · rw [hre] at hv
                    rw [ihL h l es ps hre]
                    exact hv
              | map es =>
                  rw [readP_ref_map n h ad es hnd] at hv
                  rw [readP_ref_map n (h ++ l) ad es hnd2]
                  rcases hre : readE n h es with _ | ps
                  · rw [hre] at hv; cases hv
                  · rw [hre] at hv
                    rw [ihE h l es ps hre]
                    exact hv
      refine ⟨hP, ?_, ?_⟩
      · intro h l es
        induction es with
        | nil => intro ps hps; simpa [readL] using hps
        | cons v vs ihes =>
            intro ps hps
            rw [readL] at hps ⊢
            rcases hv : readP (n + 1) h v with _ | p1
            · rw [hv] at hps; cases hps
            · rcases hvs : readL (n + 1) h vs with _ | ps1
              · rw [hv, hvs] at hps; cases hps
              · rw [hv, hvs] at hps
                rw [hP h l v p1 hv, ihes ps1 hvs]
                exact hps
      · intro h l es
        induction es with
        | nil => intro ps hps; simpa [readE] using hps
        | cons q vs ihes =>
            obtain ⟨k, v⟩ := q
            intro ps hps
            rw [readE] at hps ⊢
            rcases hv : readP (n + 1) h v with _ | p1
            · rw [hv] at hps; cases hps
            · rcases hvs : readE (n + 1) h vs with _ | ps1
              · rw [hv, hvs] at hps; cases hps
              · rw [hv, hvs] at hps
                rw [hP h l v p1 hv, ihes ps1 hvs]
                exact hps

theorem readP_append (n : Nat) (h l : Heap) (v : HVal) (p : PyVal)
    (hv : readP n h v = some p) : readP n (h ++ l) v = some p :=
  (read_append_all n).1 h l v p hv

theorem readP_ref_congr (n : Nat) (h : Heap) (a b : Nat) (nd : HNode)
    (ha : h[a]? = some nd) (hb : h[b]? = some nd) :
    readP n h (.ref a) = readP n h (.ref b) := by
  cases n with
  | zero => rw [readP_zero, readP_zero]
  | succ n =>
      cases nd with
      | arr es => rw [readP_ref_arr n h a es ha, readP_ref_arr n h b es hb]
      | map es => rw [readP_ref_map n h a es ha, readP_ref_map n h b es hb]

theorem hvalGE_mono {b b' : Nat} (hbb : b ≤ b') : ∀ v, hvalGE b' v → hvalGE b v
  | .atom _, _ => trivial
  | .ref _, hv => le_trans hbb hv

theorem nodeGE_mono {b b' : Nat} (hbb : b ≤ b') : ∀ nd, nodeGE b' nd → nodeGE b nd
  | .arr _, hn => fun v hv => hvalGE_mono hbb v (hn v hv)
  | .map _, hn => fun q hq => hvalGE_mono hbb q.2 (hn q hq)

theorem deepcopy_zero (h : Heap) (v : HVal) : deepcopy 0 h v = Option.none := by
  rw [deepcopy]

theorem deepcopy_atom (n : Nat) (h : Heap) (a : HAtom) :
    deepcopy (n + 1) h (.atom a) = some (h, .atom a) := by
  rw [deepcopy]

theorem deepcopy_ref_arr (n : Nat) (h : Heap) (ad : Nat) (es : List HVal)
    (hnd : h[ad]? = some (.arr es)) :
    deepcopy (n + 1) h (.ref ad) =
      (match deepcopyL n h es with
       | some (h2, es2) => some (h2 ++ [.arr es2], .ref h2.length)
       | Option.none => Option.none) := by
  rw [deepcopy, hnd]

theorem deepcopy_ref_map (n : Nat) (h : Heap) (ad : Nat) (es : List (HAtom × HVal))
    (hnd : h[ad]? = some (.map es)) :
    deepcopy (n + 1) h (.ref ad) =
      (match deepcopyE n h es with
       | some (h2, es2) => some (h2 ++ [.map es2], .ref h2.length)
       | Option.none => Option.none) := by
  rw [deepcopy, hnd]

theorem deepcopy_ref_none (n : Nat) (h : Heap) (ad : Nat)
    (hnd : h[ad]? = Option.none) :
    deepcopy (n + 1) h (.ref ad) = Option.none := by
  rw [deepcopy, hnd]

theorem getElem?_of_ge_of_append {h : Heap} {i : Nat} {nd : HNode}
    (hi : h.length ≤ i) (hnd : h[i]? = some nd) : False := by
  rw [List.getElem?_eq_none hi] at hnd
  cases hnd

theorem deepcopy_fresh (n : Nat) :
    (∀ (h : Heap) (v : HVal) (h2 : Heap) (w : HVal),
      deepcopy n h v = some (h2, w) →
      (∃ l, h2 = h ++ l) ∧ hvalGE h.length w ∧
      (∀ i nd, h.length ≤ i → h2[i]? = some nd → nodeGE h.length nd)) ∧
    (∀ (es : List HVal) (h h2 : Heap) (ws : List HVal),
      deepcopyL n h es = some (h2, ws) →
      (∃ l, h2 = h ++ l) ∧ (∀ w ∈ ws, hvalGE h.length w) ∧
      (∀ i nd, h.length ≤ i → h2[i]? = some nd → nodeGE h.length nd)) ∧
    (∀ (es : List (HAtom × HVal)) (h h2 : Heap) (ws : List (HAtom × HVal)),
      deepcopyE n h es = some (h2, ws) →
      (∃ l, h2 = h ++ l) ∧ (∀ q ∈ ws, hvalGE h.length q.2) ∧
      (∀ i nd, h.length ≤ i → h2[i]? = some nd → nodeGE h.length nd)) := by
  induction n with
  | zero =>
      refine ⟨fun h v h2 w hd => (by rw [deepcopy_zero] at hd; cases hd), ?_, ?_⟩
      · intro es h h2 ws hd
        cases es with
        | nil =>
            rw [deepcopyL] at hd
            obtain ⟨rfl, rfl⟩ := Prod.mk.injEq .. ▸ Option.some.inj hd
            exact ⟨⟨[], by simp⟩, by simp,
              fun i nd hi hnd => absurd (getElem?_of_ge_of_append hi hnd) not_false⟩
        | cons v vs => rw [deepcopyL, deepcopy_zero] at hd; cases hd
      · intro es h h2 ws hd
        cases es with
        | nil =>
            rw [deepcopyE] at hd
            obtain ⟨rfl, rfl⟩ := Prod.mk.injEq .. ▸ Option.some.inj hd
            exact ⟨⟨[], by simp⟩, by simp,
              fun i nd hi hnd => absurd (getElem?_of_ge_of_append hi hnd) not_false⟩
        | cons q vs =>
            obtain ⟨k, v⟩ := q
            rw [deepcopyE, deepcopy_zero] at hd; cases hd
  | succ n ih =>
      obtain ⟨_, ihL, ihE⟩ := ih
      have hP : ∀ (h : Heap) (v : HVal) (h2 : Heap) (w : HVal),
          deepcopy (n + 1) h v = some (h2, w) →
          (∃ l, h2 = h ++ l) ∧ hvalGE h.length w ∧
          (∀ i nd, h.length ≤ i → h2[i]? = some nd → nodeGE h.length nd) := by
        intro h v h2 w hd
        cases v with
        | atom a =>
            rw [deepcopy_atom] at hd
            obtain ⟨rfl, rfl⟩ := Prod.mk.injEq .. ▸ Option.some.inj hd
            exact ⟨⟨[], by simp⟩, trivial,
              fun i nd hi hnd => absurd (getElem?_of_ge_of_append hi hnd) not_false⟩
        | ref ad =>
            rcases hnd : h[ad]? with _ | nd
            · rw [deepcopy_ref_none n h ad hnd] at hd; cases hd
            · cases nd with
              | arr es =>
                  rw [deepcopy_ref_arr n h ad es hnd] at hd
                  rcases hdl : deepcopyL n h es with _ | hkes
                  · rw [hdl] at hd; cases hd
                  · obtain ⟨hk, es2⟩ := hkes
                    rw [hdl] at hd
                    obtain ⟨rfl, rfl⟩ := Prod.mk.injEq .. ▸ Option.some.inj hd
                    obtain ⟨⟨l, hl⟩, hws, hreg⟩ := ihL es h hk es2 hdl
                    have hlen : h.length ≤ hk.length := by rw [hl]; simp
                    refine ⟨⟨l ++ [.arr es2], by rw [hl, List.append_assoc]⟩,
                      hlen, ?_⟩
                    intro i nd hi hnd2
                    by_cases hik : i < hk.length
                    · rw [List.getElem?_append, if_pos hik] at hnd2
                      exact hreg i nd hi hnd2
                    · rw [List.getElem?_append_right (le_of_not_lt hik)] at hnd2
                      rcases Nat.lt_or_ge (i - hk.length) 1 with h0 | h1
                      · have h00 : i - hk.length = 0 := by omega
                        rw [h00] at hnd2
                        simp only [List.getElem?_cons_zero, Option.some.injEq] at hnd2
                        subst hnd2
                        intro v hv
                        exact hws v hv
                      · rw [List.getElem?_eq_none (by simpa using h1)] at hnd2
                        cases hnd2
              | map es =>
                  rw [deepcopy_ref_map n h ad es hnd] at hd
                  rcases hdl : deepcopyE n h es with _ | hkes
                  · rw [hdl] at hd; cases hd
                  · obtain ⟨hk, es2⟩ := hkes
                    rw [hdl] at hd
                    obtain ⟨rfl, rfl⟩ := Prod.mk.injEq .. ▸ Option.some.inj hd
                    obtain ⟨⟨l, hl⟩, hws, hreg⟩ := ihE es h hk es2 hdl
                    have hlen : h.length ≤ hk.length := by rw [hl]; simp
                    refine ⟨⟨l ++ [.map es2], by rw [hl, List.append_assoc]⟩,
                      hlen, ?_⟩
                    intro i nd hi hnd2
                    by_cases hik : i < hk.length
                    · rw [List.getElem?_append, if_pos hik] at hnd2
                      exact hreg i nd hi hnd2
                    · rw [List.getElem?_append_right (le_of_not_lt hik)] at hnd2
                      rcases Nat.lt_or_ge (i - hk.length) 1 with h0 | h1
                      · have h00 : i - hk.length = 0 := by omega
                        rw [h00] at hnd2
                        simp only [List.getElem?_cons_zero, Option.some.injEq] at hnd2
                        subst hnd2
                        intro q hq
                        exact hws q hq
                      · rw [List.getElem?_eq_none (by simpa using h1)] at hnd2
                        cases hnd2
      refine ⟨hP, ?_, ?_⟩
      · intro es
        induction es with
        | nil =>
            intro h h2 ws hd
            rw [deepcopyL] at hd
            obtain ⟨rfl, rfl⟩ := Prod.mk.injEq .. ▸ Option.some.inj hd
            exact ⟨⟨[], by simp⟩, by simp,
              fun i nd hi hnd => absurd (getElem?_of_ge_of_append hi hnd) not_false⟩
        | cons v vs ihes =>
            intro h h2 ws hd
            rcases hdc : deepcopy (n + 1) h v with _ | h1w
            · simp only [deepcopyL, hdc] at hd
              cases hd
            · obtain ⟨h1, w⟩ := h1w
              rcases hdl : deepcopyL (n + 1) h1 vs with _ | h2ws
              · simp only [deepcopyL, hdc, hdl] at hd
                cases hd
              · obtain ⟨h2', ws1⟩ := h2ws
                simp only [deepcopyL, hdc, hdl, Option.some.injEq,
                  Prod.mk.injEq] at hd
                obtain ⟨rfl, rfl⟩ := hd
                obtain ⟨⟨l1, hl1⟩, hw, hreg1⟩ := hP h v h1 w hdc
                obtain ⟨⟨l2, hl2⟩, hws1, hreg2⟩ := ihes h1 h2' ws1 hdl
                have hlen : h.length ≤ h1.length := by rw [hl1]; simp
                refine ⟨⟨l1 ++ l2, by rw [hl2, hl1, List.append_assoc]⟩, ?_, ?_⟩
                · intro u hu
                  rcases List.mem_cons.1 hu with rfl | hu2
                  · exact hw
                  · exact hvalGE_mono hlen u (hws1 u hu2)
                · intro i nd hi hnd2
                  by_cases hik : i < h1.length
                  · rw [hl2, List.getElem?_append, if_pos hik] at hnd2
                    exact hreg1 i nd hi hnd2
                  · exact nodeGE_mono hlen nd
                      (hreg2 i nd (le_of_not_lt hik) hnd2)
      · intro es
        induction es with
        | nil =>
            intro h h2 ws hd
            rw [deepcopyE] at hd
            obtain ⟨rfl, rfl⟩ := Prod.mk.injEq .. ▸ Option.some.inj hd
            exact ⟨⟨[], by simp⟩, by simp,
              fun i nd hi hnd => absurd (getElem?_of_ge_of_append hi hnd) not_false⟩
        | cons q vs ihes =>
            obtain ⟨k, v⟩ := q
            intro h h2 ws hd
            rcases hdc : deepcopy (n + 1) h v with _ | h1w
            · simp only [deepcopyE, hdc] at hd
              cases hd
            · obtain ⟨h1, w⟩ := h1w
              rcases hdl : deepcopyE (n + 1) h1 vs with _ | h2ws
              · simp only [deepcopyE, hdc, hdl] at hd
                cases hd
              · obtain ⟨h2', ws1⟩ := h2ws
                simp only [deepcopyE, hdc, hdl, Option.some.injEq,
                  Prod.mk.injEq] at hd
                obtain ⟨rfl, rfl⟩ := hd
                obtain ⟨⟨l1, hl1⟩, hw, hreg1⟩ := hP h v h1 w hdc
                obtain ⟨⟨l2, hl2⟩, hws1, hreg2⟩ := ihes h1 h2' ws1 hdl
                have hlen : h.length ≤ h1.length := by rw [hl1]; simp
                refine ⟨⟨l1 ++ l2, by rw [hl2, hl1, List.append_assoc]⟩, ?_, ?_⟩
                · intro u hu
                  rcases List.mem_cons.1 hu with rfl | hu2
                  · exact hw
                  · exact hvalGE_mono hlen u.2 (hws1 u hu2)
                · intro i nd hi hnd2
                  by_cases hik : i < h1.length
                  · rw [hl2, List.getElem?_append, if_pos hik] at hnd2
                    exact hreg1 i nd hi hnd2
                  · exact nodeGE_mono hlen nd
                      (hreg2 i nd (le_of_not_lt hik) hnd2)

theorem deepcopy_read (m : Nat) :
    (∀ (n : Nat) (h : Heap) (v : HVal) (h2 : Heap) (w : HVal) (p : PyVal),
      deepcopy n h v = some (h2, w) → readP m h v = some p →
      readP m h2 w = some p) ∧
    (∀ (n : Nat) (es : List HVal) (h h2 : Heap) (ws : List HVal) (ps : List PyVal),
      deepcopyL n h es = some (h2, ws) → readL m h es = some ps →
      readL m h2 ws = some ps) ∧
    (∀ (n : Nat) (es : List (HAtom × HVal)) (h h2 : Heap) (ws : List (HAtom × HVal))
      (ps : List (PyVal × PyVal)),
      deepcopyE n h es = some (h2, ws) → readE m h es = some ps →
      readE m h2 ws = some ps) := by
  induction m with
  | zero =>
      refine ⟨fun n h v h2 w p hd hr => (by rw [readP_zero] at hr; cases hr), ?_, ?_⟩
      · intro n es h h2 ws ps hd hr
        cases es with
        | nil =>
            rw [deepcopyL] at hd
            obtain ⟨rfl, rfl⟩ := Prod.mk.injEq .. ▸ Option.some.inj hd
            exact hr
        | cons v vs => rw [readL, readP_zero] at hr; cases hr
      · intro n es h h2 ws ps hd hr
        cases es with
        | nil =>
            rw [deepcopyE] at hd
            obtain ⟨rfl, rfl⟩ := Prod.mk.injEq .. ▸ Option.some.inj hd
            exact hr
        | cons q vs =>
            obtain ⟨k, v⟩ := q
            rw [readE, readP_zero] at hr; cases hr
  | succ m ih =>
      obtain ⟨ihP, ihL, ihE⟩ := ih
      have hP : ∀ (n : Nat) (h : Heap) (v : HVal) (h2 : Heap) (w : HVal) (p : PyVal),
          deepcopy n h v = some (h2, w) → readP (m + 1) h v = some p →
          readP (m + 1) h2 w = some p := by
        intro n h v h2 w p hd hr
        cases n with
        | zero => rw [deepcopy_zero] at hd; cases hd
        | succ n =>
            cases v with
            | atom a =>
                rw [deepcopy_atom] at hd
                obtain ⟨rfl, rfl⟩ := Prod.mk.injEq .. ▸ Option.some.inj hd
                exact hr
            | ref ad =>
                rcases hnd : h[ad]? with _ | nd
                · rw [readP_ref_none m h ad hnd] at hr; cases hr
                · cases nd with
                  | arr es =>
                      rw [deepcopy_ref_arr n h ad es hnd] at hd
                      rcases hdl : deepcopyL n h es with _ | hkes
                      · rw [hdl] at hd; cases hd
                      · obtain ⟨hk, es2⟩ := hkes
                        rw [hdl] at hd
                        obtain ⟨rfl, rfl⟩ := Prod.mk.injEq .. ▸ Option.some.inj hd
                        rw [readP_ref_arr m h ad es hnd] at hr
                        rcases hre : readL m h es with _ | ps
                        · rw [hre] at hr; cases hr
                        · rw [hre] at hr
                          have hp := Option.some.inj hr
                          subst hp
                          have hkey : (hk ++ [HNode.arr es2])[hk.length]? =
                              some (HNode.arr es2) :=
                            List.getElem?_concat_length hk (HNode.arr es2)
                          rw [readP_ref_arr m _ _ _ hkey]
                          have h1 : readL m hk es2 = some ps :=
                            ihL n es h hk es2 ps hdl hre
                          rw [(read_append_all m).2.1 hk [.arr es2] es2 ps h1]
                          rfl
                  | map es =>
                      rw [deepcopy_ref_map n h ad es hnd] at hd
                      rcases hdl : deepcopyE n h es with _ | hkes
                      · rw [hdl] at hd; cases hd
                      · obtain ⟨hk, es2⟩ := hkes
                        rw [hdl] at hd
                        obtain ⟨rfl, rfl⟩ := Prod.mk.injEq .. ▸ Option.some.inj hd
                        rw [readP_ref_map m h ad es hnd] at hr
                        rcases hre : readE m h es with _ | ps
                        · rw [hre] at hr; cases hr
                        · rw [hre] at hr
                          have hp := Option.some.inj hr
                          subst hp
                          have hkey : (hk ++ [HNode.map es2])[hk.length]? =
                              some (HNode.map es2) :=
                            List.getElem?_concat_length hk (HNode.map es2)
                          rw [readP_ref_map m _ _ _ hkey]
                          have h1 : readE m hk es2 = some ps :=
                            ihE n es h hk es2 ps hdl hre
                          rw [(read_append_all m).2.2 hk [.map es2] es2 ps h1]
                          rfl
      refine ⟨hP, ?_, ?_⟩
      · intro n es
        induction es with
        | nil =>
            intro h h2 ws ps hd hr
            rw [deepcopyL] at hd
            obtain ⟨rfl, rfl⟩ := Prod.mk.injEq .. ▸ Option.some.inj hd
            exact hr
        | cons v vs ihes =>
            intro h h2 ws ps hd hr
            rcases hdc : deepcopy n h v with _ | h1w
            · simp only [deepcopyL, hdc] at hd
              cases hd
            · obtain ⟨h1, w⟩ := h1w
              rcases hdl : deepcopyL n h1 vs with _ | h2ws
              · simp only [deepcopyL, hdc, hdl] at hd
                cases hd
              · obtain ⟨h2', ws1⟩ := h2ws
                simp only [deepcopyL, hdc, hdl, Option.some.injEq,
                  Prod.mk.injEq] at hd
                obtain ⟨rfl, rfl⟩ := hd
                rw [readL] at hr
                rcases hrv : readP (m + 1) h v with _ | p1
                · rw [hrv] at hr; cases hr
                · rcases hrs : readL (m + 1) h vs with _ | ps1
                  · rw [hrv, hrs] at hr; cases hr
                  · rw [hrv, hrs] at hr
                    have hp := Option.some.inj hr
                    subst hp
                    obtain ⟨l1, rfl⟩ := ((deepcopy_fresh n).1 h v h1 w hdc).1
                    obtain ⟨l2, rfl⟩ := ((deepcopy_fresh n).2.1 vs _ _ ws1 hdl).1
                    have hw2 : readP (m + 1) ((h ++ l1) ++ l2) w = some p1 :=
                      readP_append (m + 1) (h ++ l1) l2 w p1
                        (hP n h v (h ++ l1) w p1 hdc hrv)
                    have hvs1 : readL (m + 1) (h ++ l1) vs = some ps1 :=
                      (read_append_all (m + 1)).2.1 h l1 vs ps1 hrs
                    have hws1 : readL (m + 1) ((h ++ l1) ++ l2) ws1 = some ps1 :=
                      ihes (h ++ l1) ((h ++ l1) ++ l2) ws1 ps1 hdl hvs1
                    rw [readL, hw2, hws1]
      · intro n es
        induction es with
        | nil =>
            intro h h2 ws ps hd hr
            rw [deepcopyE] at hd
            obtain ⟨rfl, rfl⟩ := Prod.mk.injEq .. ▸ Option.some.inj hd
            exact hr
        | cons q vs ihes =>
            obtain ⟨k, v⟩ := q
            intro h h2 ws ps hd hr
            rcases hdc : deepcopy n h v with _ | h1w
            · simp only [deepcopyE, hdc] at hd
              cases hd
            · obtain ⟨h1, w⟩ := h1w
              rcases hdl : deepcopyE n h1 vs with _ | h2ws
              · simp only [deepcopyE, hdc, hdl] at hd
                cases hd
              · obtain ⟨h2', ws1⟩ := h2ws
                simp only [deepcopyE, hdc, hdl, Option.some.injEq,
                  Prod.mk.injEq] at hd
                obtain ⟨rfl, rfl⟩ := hd
                rw [readE] at hr
                rcases hrv : readP (m + 1) h v with _ | p1
                · rw [hrv] at hr; cases hr
                · rcases hrs : readE (m + 1) h vs with _ | ps1
                  · rw [hrv, hrs] at hr; cases hr
                  · rw [hrv, hrs] at hr
                    have hp := Option.some.inj hr
                    subst hp
                    obtain ⟨l1, rfl⟩ := ((deepcopy_fresh n).1 h v h1 w hdc).1
                    obtain ⟨l2, rfl⟩ := ((deepcopy_fresh n).2.2 vs _ _ ws1 hdl).1
                    have hw2 : readP (m + 1) ((h ++ l1) ++ l2) w = some p1 :=
                      readP_append (m + 1) (h ++ l1) l2 w p1
                        (hP n h v (h ++ l1) w p1 hdc hrv)
                    have hvs1 : readE (m + 1) (h ++ l1) vs = some ps1 :=
                      (read_append_all (m + 1)).2.2 h l1 vs ps1 hrs
                    have hws1 : readE (m + 1) ((h ++ l1) ++ l2) ws1 = some ps1 :=
                      ihes (h ++ l1) ((h ++ l1) ++ l2) ws1 ps1 hdl hvs1
                    rw [readE, hw2, hws1]

theorem nodeGE_arr {b : Nat} {es : List HVal} (h : nodeGE b (.arr es)) :
    ∀ v ∈ es, hvalGE b v := h

theorem nodeGE_map {b : Nat} {es : List (HAtom × HVal)} (h : nodeGE b (.map es)) :
    ∀ q ∈ es, hvalGE b q.2 := h

theorem reaches_ge (h2 : Heap) (base : Nat)
    (hregion : ∀ i nd, base ≤ i → h2[i]? = some nd → nodeGE base nd) :
    ∀ (v : HVal) (b : Nat), Reaches h2 v b → hvalGE base v → base ≤ b := by
  intro v b hr
  induction hr with
  | here a => intro hv; exact hv
  | thruArr ha hmem _ ih =>
      intro hv
      exact ih (nodeGE_arr (hregion _ _ hv ha) _ hmem)
  | thruMap ha hmem _ ih =>
      intro hv
      exact ih (nodeGE_map (hregion _ _ hv ha) _ hmem)

theorem readP_set_ge (n : Nat) (h l : Heap) (b : Nat) (nd : HNode) (v : HVal)
    (p : PyVal) (hb : h.length ≤ b) (hv : readP n h v = some p) :
    readP n ((h ++ l).set b nd) v = some p := by
  rw [List.set_append, if_neg (by omega)]
  exact readP_append n h _ v p hv

theorem map_pair_id (es : List (HAtom × HVal)) :
    es.map (fun q => (q.1, id q.2)) = es := by
  simp

theorem cloneH_shallow (m : Nat) (h : Heap) (a : Nat) (nd : HNode)
    (hnd : h[a]? = some nd) :
    cloneH m h (.ref a) false Option.none =
      some ((h ++ [nd]) ++ [nd], .ref (h ++ [nd]).length) := by
  have hsc : shallowCopy h (.ref a) = (h ++ [nd], .ref h.length) := by
    rw [shallowCopy, hnd]
  cases nd with
  | arr es => simp [cloneH, hsc, List.getElem?_concat_length]
  | map es => simp [cloneH, hsc, List.getElem?_concat_length]

theorem deepcopy_ref_shape (n : Nat) (h : Heap) (a : Nat) (h2 : Heap) (w : HVal)
    (hd : deepcopy n h (.ref a) = some (h2, w)) : ∃ c2, w = .ref c2 := by
  cases n with
  | zero => rw [deepcopy_zero] at hd; cases hd
  | succ n =>
      rcases hnd : h[a]? with _ | nd
      · rw [deepcopy_ref_none n h a hnd] at hd; cases hd
      · cases nd with
        | arr es =>
            rw [deepcopy_ref_arr n h a es hnd] at hd
            rcases hdl : deepcopyL n h es with _ | hkes
            · rw [hdl] at hd; cases hd
            · obtain ⟨hk, es2⟩ := hkes
              rw [hdl] at hd
              obtain ⟨rfl, rfl⟩ := Prod.mk.injEq .. ▸ Option.some.inj hd
              exact ⟨hk.length, rfl⟩
        | map es =>
            rw [deepcopy_ref_map n h a es hnd] at hd
            rcases hdl : deepcopyE n h es with _ | hkes
            · rw [hdl] at hd; cases hd
            · obtain ⟨hk, es2⟩ := hkes
              rw [hdl] at hd
              obtain ⟨rfl, rfl⟩ := Prod.mk.injEq .. ▸ Option.some.inj hd
              exact ⟨hk.length, rfl⟩

theorem cloneH_deep (m : Nat) (h h2 : Heap) (a c2 : Nat) (nd2 : HNode)
    (hdc : deepcopy m h (.ref a) = some (h2, .ref c2))
    (hnd2 : h2[c2]? = some nd2) :
    cloneH m h (.ref a) true Option.none = some (h2 ++ [nd2], .ref h2.length) := by
  cases nd2 with
  | arr es => simp [cloneH, hdc, hnd2]
  | map es => simp [cloneH, hdc, hnd2]

/-- C7: clone returns a structure equal in content to its input, held in
distinct (freshly allocated) top-level storage, and never mutates its
input: overwriting the clone's top-level cell leaves the input's content
unchanged; clone_deep additionally reaches only freshly allocated cells,
so overwriting any cell reachable from the deep clone's result leaves the
input's content unchanged. -/
theorem C7_clone_frame (n m : Nat) (h : Heap) (a : Nat) (p : PyVal)
    (hr : readP n h (.ref a) = some p)
    (hD : Heap) (z : HVal)
    (hc : clone_deep m h (.ref a) Option.none = some (hD, z)) :
    (∃ (hS : Heap) (c : Nat),
      cloneH m h (.ref a) false Option.none = some (hS, .ref c) ∧
      (∃ l, hS = h ++ l) ∧
      a < h.length ∧ h.length ≤ c ∧
      readP n hS (.ref c) = some p ∧
      readP n hS (.ref a) = some p ∧
      (∀ nd, readP n (hS.set c nd) (.ref a) = some p)) ∧
    ((∃ l, hD = h ++ l) ∧
      readP n hD z = some p ∧
      readP n hD (.ref a) = some p ∧
      (∀ b, Reaches hD z b → h.length ≤ b) ∧
      (∀ b nd, Reaches hD z b → readP n (hD.set b nd) (.ref a) = some p)) := by
  cases n with
  | zero => rw [readP_zero] at hr; cases hr
  | succ n' =>
      rcases hnd : h[a]? with _ | nd0
      · rw [readP_ref_none n' h a hnd] at hr; cases hr
      · have ha : a < h.length := by
          by_contra hlt
          rw [List.getElem?_eq_none (by omega)] at hnd
          cases hnd
        constructor
        · -- shallow clone
          have h1r : readP (n' + 1) (h ++ [nd0]) (.ref a) = some p :=
            readP_append _ h [nd0] _ p hr
          have h2r : readP (n' + 1) ((h ++ [nd0]) ++ [nd0]) (.ref a) = some p :=
            readP_append _ _ [nd0] _ p h1r
          have hSa : ((h ++ [nd0]) ++ [nd0])[a]? = some nd0 := by
            rw [List.getElem?_append, if_pos (by simp; omega),
              List.getElem?_append, if_pos ha]
            exact hnd
          have hSc : ((h ++ [nd0]) ++ [nd0])[(h ++ [nd0]).length]? = some nd0 :=
            List.getElem?_concat_length _ _
          refine ⟨(h ++ [nd0]) ++ [nd0], (h ++ [nd0]).length,
            cloneH_shallow m h a nd0 hnd,
            ⟨[nd0] ++ [nd0], by rw [List.append_assoc]⟩,
            ha, by simp, ?_, h2r, ?_⟩
          · rw [readP_ref_congr (n' + 1) _ _ a nd0 hSc hSa]
            exact h2r
          · intro nd
            have hassoc : (h ++ [nd0]) ++ [nd0] = h ++ ([nd0] ++ [nd0]) := by
              rw [List.append_assoc]
            rw [hassoc]
            exact readP_set_ge _ h _ _ nd _ p (by simp) hr
        · -- deep clone
          have hc' : cloneH m h (.ref a) true Option.none = some (hD, z) := hc
          rcases hdc : deepcopy m h (.ref a) with _ | h2w
          · rw [cloneH, hdc] at hc'
            cases hc'
          · obtain ⟨h2, w⟩ := h2w
            obtain ⟨c2, rfl⟩ := deepcopy_ref_shape m h a h2 w hdc
            rcases hnd2 : h2[c2]? with _ | nd2
            · simp [cloneH, hdc, hnd2] at hc'
            · rw [cloneH_deep m h h2 a c2 nd2 hdc hnd2] at hc'
              obtain ⟨rfl, rfl⟩ := Prod.mk.injEq .. ▸ Option.some.inj hc'
              obtain ⟨⟨l0, hl0⟩, hwGE, hreg⟩ :=
                (deepcopy_fresh m).1 h (.ref a) h2 (.ref c2) hdc
              have hw2 : readP (n' + 1) h2 (.ref c2) = some p :=
                (deepcopy_read (n' + 1)).1 m h _ h2 _ p hdc hr
              have hc2lt : c2 < h2.length := by
                by_contra hlt
                rw [List.getElem?_eq_none (by omega)] at hnd2
                cases hnd2
              have hlen2 : h.length ≤ h2.length := by rw [hl0]; simp
              have hwGE' : h.length ≤ c2 := hwGE
              have hregD : ∀ i nd, h.length ≤ i → (h2 ++ [nd2])[i]? = some nd →
                  nodeGE h.length nd := by
                intro i nd hi hnd'
                by_cases hik : i < h2.length
                · rw [List.getElem?_append, if_pos hik] at hnd'
                  exact hreg i nd hi hnd'
                · rw [List.getElem?_append_right (le_of_not_lt hik)] at hnd'
                  rcases Nat.lt_or_ge (i - h2.length) 1 with h0 | h1
                  · have h00 : i - h2.length = 0 := by omega
                    rw [h00] at hnd'
                    simp only [List.getElem?_cons_zero, Option.some.injEq] at hnd'
                    subst hnd'
                    exact hreg c2 nd2 hwGE' hnd2
                  · rw [List.getElem?_eq_none (by simpa using h1)] at hnd'
                    cases hnd'
              have heq2 : h2 ++ [nd2] = h ++ (l0 ++ [nd2]) := by
                rw [hl0, List.append_assoc]
              refine ⟨⟨l0 ++ [nd2], heq2⟩, ?_, ?_, ?_, ?_⟩
              · have hDc2 : (h2 ++ [nd2])[c2]? = some nd2 := by
                  rw [List.getElem?_append, if_pos hc2lt]
                  exact hnd2
                have hDtop : (h2 ++ [nd2])[h2.length]? = some nd2 :=
                  List.getElem?_concat_length _ _
                rw [readP_ref_congr (n' + 1) _ _ c2 nd2 hDtop hDc2]
                exact readP_append _ h2 [nd2] _ p hw2
              · rw [heq2]
                exact readP_append _ h _ _ p hr
              · intro b hb
                exact reaches_ge (h2 ++ [nd2]) h.length hregD (.ref h2.length)
                  b hb hlen2
              · intro b nd hb
                have hbge : h.length ≤ b :=
                  reaches_ge (h2 ++ [nd2]) h.length hregD (.ref h2.length)
                    b hb hlen2
                rw [heq2]
                exact readP_set_ge _ h _ b nd _ p hbge hr

/-- C7 witness: the theorem applied to the heap holding the nested list
value x = [[5]] (cell 1 referencing cell 0). -/
theorem C7_clone_frame_witness :
    readP 3 [HNode.arr [HVal.atom (HAtom.int 5)], HNode.arr [HVal.ref 0]]
        (.ref 1) = some (PyVal.list [PyVal.list [PyVal.int 5]]) ∧
    clone_deep 3 [HNode.arr [HVal.atom (HAtom.int 5)], HNode.arr [HVal.ref 0]]
        (.ref 1) Option.none =
      some ([HNode.arr [HVal.atom (HAtom.int 5)], HNode.arr [HVal.ref 0],
        HNode.arr [HVal.atom (HAtom.int 5)], HNode.arr [HVal.ref 2],
        HNode.arr [HVal.ref 2]], .ref 4) ∧
    ((∃ (hS : Heap) (c : Nat),
      cloneH 3 [HNode.arr [HVal.atom (HAtom.int 5)], HNode.arr [HVal.ref 0]]
          (.ref 1) false Option.none = some (hS, .ref c) ∧
      (∃ l, hS = [HNode.arr [HVal.atom (HAtom.int 5)], HNode.arr [HVal.ref 0]] ++ l) ∧
      1 < List.length [HNode.arr [HVal.atom (HAtom.int 5)], HNode.arr [HVal.ref 0]] ∧
      List.length [HNode.arr [HVal.atom (HAtom.int 5)], HNode.arr [HVal.ref 0]] ≤ c ∧
      readP 3 hS (.ref c) = some (PyVal.list [PyVal.list [PyVal.int 5]]) ∧
      readP 3 hS (.ref 1) = some (PyVal.list [PyVal.list [PyVal.int 5]]) ∧
      (∀ nd, readP 3 (hS.set c nd) (.ref 1) =
        some (PyVal.list [PyVal.list [PyVal.int 5]]))) ∧
    ((∃ l, [HNode.arr [HVal.atom (HAtom.int 5)], HNode.arr [HVal.ref 0],
        HNode.arr [HVal.atom (HAtom.int 5)], HNode.arr [HVal.ref 2],
        HNode.arr [HVal.ref 2]] =
        [HNode.arr [HVal.atom (HAtom.int 5)], HNode.arr [HVal.ref 0]] ++ l) ∧
      readP 3 [HNode.arr [HVal.atom (HAtom.int 5)], HNode.arr [HVal.ref 0],
        HNode.arr [HVal.atom (HAtom.int 5)], HNode.arr [HVal.ref 2],
        HNode.arr [HVal.ref 2]] (.ref 4) =
        some (PyVal.list [PyVal.list [PyVal.int 5]]) ∧
      readP 3 [HNode.arr [HVal.atom (HAtom.int 5)], HNode.arr [HVal.ref 0],
        HNode.arr [HVal.atom (HAtom.int 5)], HNode.arr [HVal.ref 2],
        HNode.arr [HVal.ref 2]] (.ref 1) =
        some (PyVal.list [PyVal.list [PyVal.int 5]]) ∧
      (∀ b, Reaches [HNode.arr [HVal.atom (HAtom.int 5)], HNode.arr [HVal.ref 0],
        HNode.arr [HVal.atom (HAtom.int 5)], HNode.arr [HVal.ref 2],
        HNode.arr [HVal.ref 2]] (.ref 4) b →
        List.length [HNode.arr [HVal.atom (HAtom.int 5)], HNode.arr [HVal.ref 0]] ≤ b) ∧
      (∀ b nd, Reaches [HNode.arr [HVal.atom (HAtom.int 5)], HNode.arr [HVal.ref 0],
        HNode.arr [HVal.atom (HAtom.int 5)], HNode.arr [HVal.ref 2],
        HNode.arr [HVal.ref 2]] (.ref 4) b →
        readP 3 (([HNode.arr [HVal.atom (HAtom.int 5)], HNode.arr [HVal.ref 0],
          HNode.arr [HVal.atom (HAtom.int 5)], HNode.arr [HVal.ref 2],
          HNode.arr [HVal.ref 2]]).set b nd) (.ref 1) =
          some (PyVal.list [PyVal.list [PyVal.int 5]])))) := by
  have hr : readP 3 [HNode.arr [HVal.atom (HAtom.int 5)], HNode.arr [HVal.ref 0]]
      (.ref 1) = some (PyVal.list [PyVal.list [PyVal.int 5]]) := by
    simp [readP, readL, readE, atomPy]
  have hc : clone_deep 3 [HNode.arr [HVal.atom (HAtom.int 5)], HNode.arr [HVal.ref 0]]
      (.ref 1) Option.none =
      some ([HNode.arr [HVal.atom (HAtom.int 5)], HNode.arr [HVal.ref 0],
        HNode.arr [HVal.atom (HAtom.int 5)], HNode.arr [HVal.ref 2],
        HNode.arr [HVal.ref 2]], .ref 4) := by
    simp [clone_deep, cloneH, deepcopy, deepcopyL, deepcopyE, shallowCopy]
  exact ⟨hr, hc,
    C7_clone_frame 3 3 [HNode.arr [HVal.atom (HAtom.int 5)], HNode.arr [HVal.ref 0]]
      1 (PyVal.list [PyVal.list [PyVal.int 5]]) hr
      [HNode.arr [HVal.atom (HAtom.int 5)], HNode.arr [HVal.ref 0],
        HNode.arr [HVal.atom (HAtom.int 5)], HNode.arr [HVal.ref 2],
        HNode.arr [HVal.ref 2]] (.ref 4) hc⟩
